import Mathlib

/-!
Verification development for the hierarchical task scheduling and timeline
layout engine of the cardi_log repository.

The Python functions of src/utils_data.py and the task-save flow of
src/app_views/project_plan.py are shallowly embedded below.  Conventions:

* A stored date field (SQLAlchemy string column) is modelled by `RawDate`:
  it is either absent (empty / None), malformed (a string strptime rejects),
  or parses to a point on the time line.  Parsed datetimes are modelled as
  rational numbers counting days since an arbitrary epoch (midnight values
  are integers; `datetime.now()` may carry a fractional day part), so that
  Python's `<`, `>` on datetimes is the rational order and
  `(b - a).days` is `Int.floor (b - a)` (timedelta.days floors).
* Python exceptions raised by comparing `None` against a datetime are made
  explicit with `Except`; a `try/except` block is an explicit `match` that
  keeps the mutations performed before the raise, exactly as CPython does.
* Machine integers are `Nat`/`Int`; `int(x / y)` on nonnegative integers is
  `Nat` division (truncation towards zero equals floor there).
-/

namespace CardiLog

/-- A stored date column value: `None`/empty, an unparsable string, or a
value that `ensure_datetime` parses to a time-line point (in days). -/
inductive RawDate where
  | missing : RawDate
  | malformed : RawDate
  | valid : ℚ → RawDate
deriving DecidableEq

/-- Embedding of `ensure_datetime` (utils_data.py lines 10-23): falsy or
unparsable values give `None`, otherwise the parsed datetime. -/
def ensure_datetime : RawDate → Option ℚ
  | .missing => none
  | .malformed => none
  | .valid d => some d

/-- The fields of a `ProjectTask` row that the propagation functions read
or write. -/
structure TaskRec where
  start_date : RawDate
  end_date : RawDate
deriving DecidableEq

/-- Python `a > b` on `Option`-al datetimes: comparing with `None` raises
`TypeError`, modelled as `Except.error`. -/
def pyGtDt : Option ℚ → Option ℚ → Except Unit Bool
  | some a, some b => .ok (decide (b < a))
  | _, _ => .error ()

/-- Python `a < b` on `Option`-al datetimes; `None` raises. -/
def pyLtDt : Option ℚ → Option ℚ → Except Unit Bool
  | some a, some b => .ok (decide (a < b))
  | _, _ => .error ()

/-- Body of `update_hierarchy_dates` (utils_data.py lines 147-183), i.e. the
code inside its `try:` block, run against the ancestor chain
(parent first, root last).  The second component records whether a raised
`TypeError` reached this level's `except` handler; mutations made before
the raise are kept.  The recursive call is the full function, so an
exception inside it is caught inside it and never reaches the outer level. -/
def uhdBody (task : TaskRec) : List TaskRec → List TaskRec × Bool
  | [] => ([], false)
  | parent :: rest =>
    let t_start := ensure_datetime task.start_date
    let t_end := ensure_datetime task.end_date
    let p_start := ensure_datetime parent.start_date
    let p_end := ensure_datetime parent.end_date
    match pyGtDt t_end p_end with
    | .error _ => (parent :: rest, true)
    | .ok b1 =>
      let parent1 := if b1 then { parent with end_date := task.end_date } else parent
      match pyLtDt t_start p_start with
      | .error _ => (parent1 :: rest, true)
      | .ok b2 =>
        let parent2 := if b2 then { parent1 with start_date := task.start_date } else parent1
        if b1 || b2 then
          (parent2 :: (uhdBody parent2 rest).1, false)
        else
          (parent2 :: rest, false)

/-- Embedding of `update_hierarchy_dates`: the `except` handler logs and
returns, so the caller always receives the (possibly partially updated)
ancestor chain. -/
def update_hierarchy_dates (task : TaskRec) (ancestors : List TaskRec) : List TaskRec :=
  (uhdBody task ancestors).1

/-- The fields of a child row read by `update_parent_completion`. -/
structure ChildRec where
  start_date : RawDate
  end_date : RawDate
  completion : Option ℕ
deriving DecidableEq

/-- `start = ensure_datetime(c.start_date) or datetime.now()`
(utils_data.py line 130). -/
def childStart (now : ℚ) (c : ChildRec) : ℚ :=
  (ensure_datetime c.start_date).getD now

/-- `end = ensure_datetime(c.end_date) or start` (utils_data.py line 131). -/
def childEnd (now : ℚ) (c : ChildRec) : ℚ :=
  (ensure_datetime c.end_date).getD (childStart now c)

/-- `duration = (end - start).days + 1`, floored at 1
(utils_data.py lines 132-133); `timedelta.days` floors. -/
def childDuration (now : ℚ) (c : ChildRec) : ℕ :=
  (max 1 (⌊childEnd now c - childStart now c⌋ + 1)).toNat

/-- `comp = c.completion or 0` (utils_data.py line 128). -/
def childComp (c : ChildRec) : ℕ :=
  c.completion.getD 0

/-- The accumulation loop of `update_parent_completion`
(utils_data.py lines 124-136): pairs `(total_duration, weighted_sum)`. -/
def upcLoop (now : ℚ) : List ChildRec → ℕ × ℕ → ℕ × ℕ
  | [], acc => acc
  | c :: cs, (td, ws) =>
    upcLoop now cs (td + childDuration now c, ws + childComp c * childDuration now c)

/-- Embedding of `update_parent_completion` (utils_data.py lines 112-145)
restricted to the value stored into `parent_task.completion` for a parent
with the given direct children: `int(weighted_sum / total_duration)` when
`total_duration > 0` else `0`.  (The code writes the value only when it
differs from the stored one, which leaves the resulting completion equal to
this value in both branches.) -/
def update_parent_completion (now : ℚ) (children : List ChildRec) : ℕ :=
  let acc := upcLoop now children (0, 0)
  if 0 < acc.1 then acc.2 / acc.1 else 0

/-! ### Identifier scheme (utils_data.py, project_plan.py)

Identifiers are strings; we work on their character lists.  `str.isdigit`
on the ASCII identifiers of this scheme is a test for `'0'..'9'`. -/

/-- ASCII decimal digit test (the only characters Python's `\d` and
`str.isdigit` see in task identifiers). -/
def isDigitCh (c : Char) : Bool :=
  decide ('0' ≤ c) && decide (c ≤ '9')

/-- The numeric value of a digit character. -/
def digitVal (c : Char) : ℕ :=
  c.toNat - 48

/-- `int(...)` on a digit run. -/
def digitsToNat (l : List Char) : ℕ :=
  l.foldl (fun acc c => 10 * acc + digitVal c) 0

/-- The decimal digit characters, little reference table form. -/
def digitCh (n : ℕ) : Char :=
  match n with
  | 0 => '0' | 1 => '1' | 2 => '2' | 3 => '3' | 4 => '4'
  | 5 => '5' | 6 => '6' | 7 => '7' | 8 => '8' | _ => '9'

/-- Embedding of Python `str(n)` for a natural number: its decimal digits. -/
def natRepr (n : ℕ) : List Char :=
  if n < 10 then [digitCh n]
  else natRepr (n / 10) ++ [digitCh (n % 10)]
decreasing_by exact Nat.div_lt_self (by omega) (by omega)

/-- `part.zfill(5)`: left-pad with `'0'` to length 5. -/
def zfill5 (l : List Char) : List Char :=
  List.replicate (5 - l.length) '0' ++ l

/-- Embedding of `get_task_sort_key` (utils_data.py lines 306-326) on the
character list: `re.split` with a capture group cuts the string into
maximal digit runs and the non-digit text between them, every digit run is
`zfill`-ed to 5 characters, and the parts are joined back. -/
def padRuns : List Char → List Char
  | [] => []
  | c :: cs =>
    if isDigitCh c then
      zfill5 (c :: cs.takeWhile isDigitCh) ++ padRuns (cs.dropWhile isDigitCh)
    else
      c :: padRuns cs
termination_by l => l.length
decreasing_by
  · simpa using Nat.lt_succ_of_le (List.dropWhile_sublist isDigitCh).length_le
  · simp

/-- `get_task_sort_key` at the string level. -/
def get_task_sort_key (s : String) : String :=
  ⟨padRuns s.data⟩

/-- Python string `<`: lexicographic comparison by code point, a strict
prefix comparing below the longer string. -/
def pyStrLt : List Char → List Char → Bool
  | [], [] => false
  | [], _ :: _ => true
  | _ :: _, [] => false
  | a :: as, b :: bs =>
    decide (a.toNat < b.toNat) || (a == b && pyStrLt as bs)

/-- `re.match(r"^TASK(\d+)", tid)` (utils_data.py line 78): the leading
integer after `TASK`, also matching on deeper identifiers like `TASK3.1`. -/
def leadingTaskNum (l : List Char) : Option ℕ :=
  match l with
  | 'T' :: 'A' :: 'S' :: 'K' :: rest =>
    let ds := rest.takeWhile isDigitCh
    if ds.isEmpty then none else some (digitsToNat ds)
  | _ => none

/-- The `max_id` loop of `generate_task_id` (utils_data.py lines 74-82). -/
def maxLeadingNum (ids : List (List Char)) : ℕ :=
  ids.foldl
    (fun max_id tid =>
      match leadingTaskNum tid with
      | some num => if max_id < num then num else max_id
      | none => max_id)
    0

/-- Embedding of `generate_task_id` (utils_data.py lines 65-85):
`TASK{max+1}` over the project's identifiers.  (The Python loop skips falsy
identifiers; the empty string matches nothing, so the result agrees.) -/
def generate_task_id (ids : List (List Char)) : List Char :=
  'T' :: 'A' :: 'S' :: 'K' :: natRepr (maxLeadingNum ids + 1)

/-- Modelled from the spec: `GenerateRootId` as §4.1 words it — the maximum
is taken over the *depth-0* identifiers only, deeper identifiers such as
`TASK3.1` being ignored.  Used to compare the spec's description with
`generate_task_id`. -/
def specGenerateRootId (ids : List (List Char)) : List Char :=
  let m := (ids.filter (fun tid => ¬ '.' ∈ tid)).foldl
    (fun max_id tid =>
      match leadingTaskNum tid with
      | some num => if max_id < num then num else max_id
      | none => max_id)
    0
  'T' :: 'A' :: 'S' :: 'K' :: natRepr (m + 1)

/-! ### The save-task flow (project_plan.py `save_task`/`finalize_save`)

Only the identifier-driven control flow is embedded: the task-name, date
and completion fields are orthogonal to the depth/format/parent checks the
claims are about and do not influence which branch is taken. -/

/-- Continuation of the `^TASK\d+(\.\d+)*$` matcher after the first digit
run: zero or more groups of `'.'` followed by a nonempty digit run. -/
def dotGroups : List Char → Bool
  | [] => true
  | c :: rest =>
    if c = '.' then
      let ds := rest.takeWhile isDigitCh
      !ds.isEmpty && dotGroups (rest.dropWhile isDigitCh)
    else false
termination_by l => l.length
decreasing_by
  simpa using Nat.lt_succ_of_le (List.dropWhile_sublist isDigitCh).length_le

/-- `re.match(r"^TASK\d+(\.\d+)*$", id)` (project_plan.py line 877). -/
def taskIdFormat (l : List Char) : Bool :=
  match l with
  | 'T' :: 'A' :: 'S' :: 'K' :: rest =>
    let ds := rest.takeWhile isDigitCh
    !ds.isEmpty && dotGroups (rest.dropWhile isDigitCh)
  | _ => false

/-- `task_id.rsplit(".", 1)[0]` when the identifier contains a dot: the
prefix before the last `'.'`. -/
def parentIdOf (l : List Char) : Option (List Char) :=
  match l.reverse.dropWhile (fun c => !(c = '.')) with
  | '.' :: restRev => some restRev.reverse
  | _ => none

/-- Outcome of saving a new task from the dialog. -/
inductive SaveResult where
  | created : List Char → SaveResult
  | invalidFormat : SaveResult
  | parentMissing : List Char → SaveResult
  | duplicate : SaveResult
deriving DecidableEq

/-- Embedding of the create-new-task path of `save_task`/`finalize_save`
(project_plan.py lines 857-916 and 766-844) for a manually entered
identifier (no `parent_task` preset): format validation, then the
parent-must-exist check for dotted identifiers, then the duplicate check,
then creation (an existing parent is linked when found).  An empty
identifier gets an auto-generated one. -/
def save_task (existing : List (List Char)) (reqId : List Char) : SaveResult :=
  if reqId = [] then
    .created (generate_task_id existing)
  else if !taskIdFormat reqId then
    .invalidFormat
  else
    match parentIdOf reqId with
    | some pid =>
      if pid ∈ existing then
        if reqId ∈ existing then .duplicate else .created reqId
      else
        .parentMissing pid
    | none =>
      if reqId ∈ existing then .duplicate else .created reqId

/-! ### Timeline coordinate mapper (utils_data.py lines 665-761)

`get_x_offset_for_date` reads the calendar fields of its `datetime`
arguments, so here dates are proper Gregorian triples.  Python `float`
arithmetic is modelled over `ℚ` (the spec presents the formulas as exact
fractional approximations). -/

/-- Gregorian leap-year rule (what `datetime` implements). -/
def isLeap (y : ℕ) : Bool :=
  y % 4 = 0 && (y % 100 ≠ 0 || y % 400 = 0)

/-- Days in a month, taking the leap flag of the year. -/
def daysInMonth (leap : Bool) (m : ℕ) : ℕ :=
  match m with
  | 1 => 31 | 2 => if leap then 29 else 28 | 3 => 31 | 4 => 30
  | 5 => 31 | 6 => 30 | 7 => 31 | 8 => 31
  | 9 => 30 | 10 => 31 | 11 => 30 | _ => 31

/-- Days in the months strictly before month `m`. -/
def daysBeforeMonth (leap : Bool) : ℕ → ℕ
  | 0 => 0
  | 1 => 0
  | m + 1 => daysBeforeMonth leap m + daysInMonth leap m

/-- A `datetime.date`: a valid proleptic Gregorian triple. -/
structure PyDate where
  year : ℕ
  month : ℕ
  day : ℕ
deriving DecidableEq

/-- Validity of a `PyDate` (what `datetime` guarantees). -/
def PyDate.Valid (d : PyDate) : Prop :=
  1 ≤ d.year ∧ 1 ≤ d.month ∧ d.month ≤ 12 ∧ 1 ≤ d.day ∧
    d.day ≤ daysInMonth (isLeap d.year) d.month

instance (d : PyDate) : Decidable d.Valid := by
  unfold PyDate.Valid; infer_instance

/-- `date.timetuple().tm_yday` (used by the Years branch). -/
def dayOfYear (d : PyDate) : ℕ :=
  daysBeforeMonth (isLeap d.year) d.month + d.day

/-- Number of leap years in `1..n` (the standard closed form). -/
def leapsUpTo (n : ℕ) : ℤ :=
  (n : ℤ) / 4 - (n : ℤ) / 100 + (n : ℤ) / 400

/-- `date.toordinal()`: the proleptic Gregorian day number, through which
`datetime` subtraction `(a - b).days` is `toOrdinal a - toOrdinal b`. -/
def toOrdinal (d : PyDate) : ℤ :=
  365 * ((d.year : ℤ) - 1) + leapsUpTo (d.year - 1) +
    (daysBeforeMonth (isLeap d.year) d.month : ℤ) + (d.day : ℤ)

/-- Python date order (`datetime` compares chronologically, which on the
calendar fields is lexicographic). -/
def PyDate.le (a b : PyDate) : Prop :=
  a.year < b.year ∨ (a.year = b.year ∧
    (a.month < b.month ∨ (a.month = b.month ∧ a.day ≤ b.day)))

instance (a b : PyDate) : Decidable (a.le b) := by
  unfold PyDate.le; infer_instance

/-- The `relativedelta` step stored in a scale configuration. -/
inductive RelDelta where
  | days : ℕ → RelDelta
  | weeks : ℕ → RelDelta
  | months : ℕ → RelDelta
  | years : ℕ → RelDelta
deriving DecidableEq

/-- One entry of the `config` dict of `get_time_scale_config`. -/
structure TimeScaleConfig where
  step : RelDelta
  format : String
  slot_width : ℚ
  label : String
deriving DecidableEq

/-- Embedding of `get_time_scale_config` (utils_data.py lines 665-704):
`config.get(view_mode, config["Days"])`. -/
def get_time_scale_config (view_mode : String) : TimeScaleConfig :=
  if view_mode = "Days" then
    ⟨.days 1, "%d\n%b", 30, "Daily"⟩
  else if view_mode = "Weeks" then
    ⟨.weeks 1, "W%W\n%b", 40, "Weekly"⟩
  else if view_mode = "Months" then
    ⟨.months 1, "%b\n%Y", 50, "Monthly"⟩
  else if view_mode = "Quarters" then
    ⟨.months 3, "%Y", 60, "Quarterly"⟩
  else if view_mode = "Years" then
    ⟨.years 1, "%Y", 80, "Yearly"⟩
  else
    ⟨.days 1, "%d\n%b", 30, "Daily"⟩

/-- Embedding of `get_x_offset_for_date` (utils_data.py lines 706-761) for
present (non-`None`) dates.  Every branch follows the source formula; an
unrecognised `view_mode` reaches the final `return 0`. -/
def get_x_offset_for_date (date_obj min_date : PyDate) (view_mode : String)
    (slot_width : ℚ) : ℚ :=
  if view_mode = "Days" then
    ((toOrdinal date_obj - toOrdinal min_date : ℤ) : ℚ) * slot_width
  else if view_mode = "Weeks" then
    ((toOrdinal date_obj - toOrdinal min_date : ℤ) : ℚ) / 7 * slot_width
  else if view_mode = "Months" then
    let year_diff : ℤ := (date_obj.year : ℤ) - (min_date.year : ℤ)
    let month_diff : ℤ := (date_obj.month : ℤ) - (min_date.month : ℤ)
    let total_months : ℤ := year_diff * 12 + month_diff
    let day_fraction : ℚ := ((date_obj.day : ℚ) - 1) / 31
    ((total_months : ℚ) + day_fraction) * slot_width
  else if view_mode = "Quarters" then
    let year_diff : ℤ := (date_obj.year : ℤ) - (min_date.year : ℤ)
    let month_diff : ℤ := (date_obj.month : ℤ) - (min_date.month : ℤ)
    let total_months : ℤ := year_diff * 12 + month_diff
    let day_fraction : ℚ := ((date_obj.day : ℚ) - 1) / 31
    let total_quarters : ℚ := ((total_months : ℚ) + day_fraction) / 3
    total_quarters * slot_width
  else if view_mode = "Years" then
    let year_diff : ℤ := (date_obj.year : ℤ) - (min_date.year : ℤ)
    let fraction : ℚ := ((dayOfYear date_obj : ℚ) - 1) / (1461 / 4)
    ((year_diff : ℚ) + fraction) * slot_width
  else
    0

/-! ### Predicates for the propagation claims -/

/-- The start date of `n` is no later than that of `o`: either the stored
field is untouched, or both parse and the new value is `≤` the old one. -/
def startNotLater (o n : TaskRec) : Prop :=
  n.start_date = o.start_date ∨
    ∃ a b, ensure_datetime n.start_date = some a ∧
      ensure_datetime o.start_date = some b ∧ a ≤ b

/-- The end date of `n` is no earlier than that of `o`. -/
def endNotEarlier (o n : TaskRec) : Prop :=
  n.end_date = o.end_date ∨
    ∃ a b, ensure_datetime n.end_date = some a ∧
      ensure_datetime o.end_date = some b ∧ b ≤ a

/-- `p`'s date range parses and contains `c`'s (both parse). -/
def coversB (p c : TaskRec) : Bool :=
  match ensure_datetime p.start_date, ensure_datetime p.end_date,
      ensure_datetime c.start_date, ensure_datetime c.end_date with
  | some ps, some pe, some cs, some ce => decide (ps ≤ cs) && decide (ce ≤ pe)
  | _, _, _, _ => false

/-- Both dates of a record parse. -/
def parsedB (x : TaskRec) : Bool :=
  (ensure_datetime x.start_date).isSome && (ensure_datetime x.end_date).isSome

theorem coversB_trans {a b c : TaskRec} (h1 : coversB a b) (h2 : coversB b c) :
    coversB a c := by
  unfold coversB at *
  rcases has : ensure_datetime a.start_date with _ | as <;>
    rcases hae : ensure_datetime a.end_date with _ | ae <;>
    rcases hbs : ensure_datetime b.start_date with _ | bs <;>
    rcases hbe : ensure_datetime b.end_date with _ | be <;>
    rcases hcs : ensure_datetime c.start_date with _ | cs <;>
    rcases hce : ensure_datetime c.end_date with _ | ce <;>
    simp_all <;> constructor <;> linarith

theorem notShrunk_refl (x : TaskRec) : startNotLater x x ∧ endNotEarlier x x :=
  ⟨Or.inl rfl, Or.inl rfl⟩

theorem pyGtDt_none_left (x : Option ℚ) : pyGtDt none x = .error () := by
  cases x <;> rfl

theorem pyGtDt_none_right (x : Option ℚ) : pyGtDt x none = .error () := by
  cases x <;> rfl

theorem pyLtDt_none_left (x : Option ℚ) : pyLtDt none x = .error () := by
  cases x <;> rfl

theorem pyLtDt_none_right (x : Option ℚ) : pyLtDt x none = .error () := by
  cases x <;> rfl

/-- `uhdBody` when an end date is unparsable: the first comparison raises,
the handler catches, nothing was mutated yet. -/
theorem uhdBody_err_end {t p : TaskRec} (rest : List TaskRec)
    (h : ensure_datetime t.end_date = none ∨ ensure_datetime p.end_date = none) :
    uhdBody t (p :: rest) = (p :: rest, true) := by
  rcases h with h | h <;>
    simp [uhdBody, h, pyGtDt_none_left, pyGtDt_none_right]

/-- `uhdBody` when both end dates parse but a start date is unparsable: the
end mutation may already have happened, the second comparison raises, the
handler catches, the chain above is untouched. -/
theorem uhdBody_err_start {t p : TaskRec} (rest : List TaskRec) {te pe : ℚ}
    (hte : ensure_datetime t.end_date = some te)
    (hpe : ensure_datetime p.end_date = some pe)
    (h : ensure_datetime t.start_date = none ∨ ensure_datetime p.start_date = none) :
    uhdBody t (p :: rest) =
      ((if pe < te then { p with end_date := t.end_date } else p) :: rest, true) := by
  rcases h with h | h <;>
    by_cases hlt : pe < te <;>
    simp [uhdBody, hte, hpe, h, hlt, pyGtDt, pyLtDt_none_left, pyLtDt_none_right]

/-- `uhdBody` when all four dates parse: bidirectional expansion of the
parent, recursing exactly when a field changed. -/
theorem uhdBody_parsed {t p : TaskRec} (rest : List TaskRec) {ts te ps pe : ℚ}
    (hts : ensure_datetime t.start_date = some ts)
    (hte : ensure_datetime t.end_date = some te)
    (hps : ensure_datetime p.start_date = some ps)
    (hpe : ensure_datetime p.end_date = some pe) :
    uhdBody t (p :: rest) =
      (let p2 : TaskRec := ⟨if ts < ps then t.start_date else p.start_date,
        if pe < te then t.end_date else p.end_date⟩
       if pe < te ∨ ts < ps then (p2 :: (uhdBody p2 rest).1, false)
       else (p :: rest, false)) := by
  by_cases h1 : pe < te <;> by_cases h2 : ts < ps <;>
    simp [uhdBody, hts, hte, hps, hpe, pyGtDt, pyLtDt, h1, h2]

/-- Claim C3: `update_hierarchy_dates` never shrinks any ancestor's date
range — for every task and ancestor chain, each ancestor's start date is
never moved later and its end date is never moved earlier; ancestor ranges
are mutated only by expansion. -/
theorem update_hierarchy_dates_never_shrinks (t : TaskRec) (chain : List TaskRec) :
    List.Forall₂ (fun o n => startNotLater o n ∧ endNotEarlier o n)
      chain (update_hierarchy_dates t chain) := by
  induction chain generalizing t with
  | nil => simp [update_hierarchy_dates, uhdBody]
  | cons p rest ih =>
    have hrefl : List.Forall₂ (fun o n => startNotLater o n ∧ endNotEarlier o n)
        rest rest :=
      List.forall₂_same.mpr (fun x _ => notShrunk_refl x)
    unfold update_hierarchy_dates
    rcases hte : ensure_datetime t.end_date with _ | te
    · rw [uhdBody_err_end rest (Or.inl hte)]
      exact List.Forall₂.cons (notShrunk_refl p) hrefl
    rcases hpe : ensure_datetime p.end_date with _ | pe
    · rw [uhdBody_err_end rest (Or.inr hpe)]
      exact List.Forall₂.cons (notShrunk_refl p) hrefl
    have hend : ∀ hlt : pe < te,
        startNotLater p { p with end_date := t.end_date } ∧
          endNotEarlier p { p with end_date := t.end_date } :=
      fun hlt => ⟨Or.inl rfl, Or.inr ⟨te, pe, hte, hpe, le_of_lt hlt⟩⟩
    rcases hts : ensure_datetime t.start_date with _ | ts
    · rw [uhdBody_err_start rest hte hpe (Or.inl hts)]
      by_cases hlt : pe < te
      · simp only [if_pos hlt]
        exact List.Forall₂.cons (hend hlt) hrefl
      · simp only [if_neg hlt]
        exact List.Forall₂.cons (notShrunk_refl p) hrefl
    rcases hps : ensure_datetime p.start_date with _ | ps
    · rw [uhdBody_err_start rest hte hpe (Or.inr hps)]
      by_cases hlt : pe < te
      · simp only [if_pos hlt]
        exact List.Forall₂.cons (hend hlt) hrefl
      · simp only [if_neg hlt]
        exact List.Forall₂.cons (notShrunk_refl p) hrefl
    rw [uhdBody_parsed rest hts hte hps hpe]
    by_cases hch : pe < te ∨ ts < ps
    · simp only [if_pos hch]
      refine List.Forall₂.cons ⟨?_, ?_⟩ (ih _)
      · by_cases h2 : ts < ps
        · exact Or.inr ⟨ts, ps, by simpa [h2] using hts, hps, le_of_lt h2⟩
        · exact Or.inl (by simp [h2])
      · by_cases h1 : pe < te
        · exact Or.inr ⟨te, pe, by simpa [h1] using hte, hpe, le_of_lt h1⟩
        · exact Or.inl (by simp [h1])
    · simp only [if_neg hch]
      exact List.Forall₂.cons (notShrunk_refl p) hrefl

/-- Claim C9: when an ancestor record encountered during date propagation
holds a malformed or unparsable date, the `TypeError` raised by the date
comparison reaches the `except` handler (second conjunct's flag), the
function still returns normally — `update_hierarchy_dates` is the caught
value — propagation for the branch is abandoned (every ancestor above the
bad record is returned untouched), and the bad record's own start date is
untouched too. -/
theorem update_hierarchy_dates_malformed_caught (t p : TaskRec) (rest : List TaskRec)
    (h : ensure_datetime p.start_date = none ∨ ensure_datetime p.end_date = none) :
    (uhdBody t (p :: rest)).2 = true ∧
      ∃ ed, update_hierarchy_dates t (p :: rest) = { p with end_date := ed } :: rest := by
  rcases h with h | h
  · rcases hte : ensure_datetime t.end_date with _ | te
    · rw [update_hierarchy_dates, uhdBody_err_end rest (Or.inl hte)]
      exact ⟨rfl, p.end_date, rfl⟩
    rcases hpe : ensure_datetime p.end_date with _ | pe
    · rw [update_hierarchy_dates, uhdBody_err_end rest (Or.inr hpe)]
      exact ⟨rfl, p.end_date, rfl⟩
    rw [update_hierarchy_dates, uhdBody_err_start rest hte hpe (Or.inr h)]
    refine ⟨rfl, if pe < te then t.end_date else p.end_date, ?_⟩
    by_cases hlt : pe < te <;> simp [hlt]
  · rw [update_hierarchy_dates, uhdBody_err_end rest (Or.inr h)]
    exact ⟨rfl, p.end_date, rfl⟩

/-- Witness for `update_hierarchy_dates_malformed_caught` at a parent whose
start date is an unparsable string. -/
theorem update_hierarchy_dates_malformed_caught_witness :
    (uhdBody ⟨.valid 0, .valid 5⟩
        ((⟨.malformed, .valid 3⟩ : TaskRec) :: [⟨.valid 1, .valid 2⟩])).2 = true ∧
      ∃ ed, update_hierarchy_dates ⟨.valid 0, .valid 5⟩
          ((⟨.malformed, .valid 3⟩ : TaskRec) :: [⟨.valid 1, .valid 2⟩]) =
        { (⟨.malformed, .valid 3⟩ : TaskRec) with end_date := ed } :: [⟨.valid 1, .valid 2⟩] :=
  update_hierarchy_dates_malformed_caught ⟨.valid 0, .valid 5⟩ ⟨.malformed, .valid 3⟩
    [⟨.valid 1, .valid 2⟩] (Or.inl rfl)

/-- Claim C2 as stated is false: the edited task has range day 2 to day 9,
its parent (day 1 to day 10) already covers it, so `update_hierarchy_dates`
stops without visiting the grandparent (day 5 to day 6), which is left not
covering the edited task's range. -/
theorem update_hierarchy_dates_stops_early :
    update_hierarchy_dates ⟨.valid 2, .valid 9⟩
        [⟨.valid 1, .valid 10⟩, ⟨.valid 5, .valid 6⟩] =
      [⟨.valid 1, .valid 10⟩, ⟨.valid 5, .valid 6⟩] ∧
      coversB ⟨.valid 5, .valid 6⟩ ⟨.valid 2, .valid 9⟩ = false := by
  decide

/-- Adjacent coverage along a chain propagates to its head transitively. -/
theorem chain_covers (l : List TaskRec) (a : TaskRec)
    (hc : List.Chain' (fun x y => coversB y x = true) (a :: l)) :
    ∀ r ∈ l, coversB r a = true := by
  induction l generalizing a with
  | nil => simp
  | cons b l' ih =>
    rw [List.chain'_cons] at hc
    intro r hr
    rcases List.mem_cons.mp hr with hr | hr
    · exact hr ▸ hc.1
    · exact coversB_trans (ih b hc.2 r hr) hc.1

/-- Claim C2, amended: `update_hierarchy_dates` recurses only while an
ancestor's range actually changed, so on a chain whose adjacent ancestor
pairs are initially consistent (each ancestor's parsed range covers the one
below it) and whose dates all parse, every ancestor ends up covering the
edited task's range — but an inconsistent chain can be left uncorrected
above the first ancestor that required no change. -/
theorem update_hierarchy_dates_expands_consistent_chain (t : TaskRec)
    (chain : List TaskRec) (hpt : parsedB t = true)
    (hall : ∀ x ∈ chain, parsedB x = true)
    (hc : List.Chain' (fun a b => coversB b a = true) chain) :
    ∀ r ∈ update_hierarchy_dates t chain, coversB r t = true := by
  induction chain generalizing t with
  | nil => simp [update_hierarchy_dates, uhdBody]
  | cons p rest ih =>
    obtain ⟨ts, hts⟩ := Option.isSome_iff_exists.mp (by
      have := hpt; unfold parsedB at this; exact (Bool.and_eq_true_iff.mp this).1)
    obtain ⟨te, hte⟩ := Option.isSome_iff_exists.mp (by
      have := hpt; unfold parsedB at this; exact (Bool.and_eq_true_iff.mp this).2)
    have hpp := hall p (List.mem_cons_self p rest)
    obtain ⟨ps, hps⟩ := Option.isSome_iff_exists.mp (by
      have := hpp; unfold parsedB at this; exact (Bool.and_eq_true_iff.mp this).1)
    obtain ⟨pe, hpe⟩ := Option.isSome_iff_exists.mp (by
      have := hpp; unfold parsedB at this; exact (Bool.and_eq_true_iff.mp this).2)
    rw [update_hierarchy_dates, uhdBody_parsed rest hts hte hps hpe]
    by_cases hch : pe < te ∨ ts < ps
    · simp only [if_pos hch]
      intro r hr
      have hp2s : ensure_datetime
          (if ts < ps then t.start_date else p.start_date) =
            some (if ts < ps then ts else ps) := by
        by_cases h2 : ts < ps <;> simp [h2, hts, hps]
      have hp2e : ensure_datetime
          (if pe < te then t.end_date else p.end_date) =
            some (if pe < te then te else pe) := by
        by_cases h1 : pe < te <;> simp [h1, hte, hpe]
      have hcov2 : coversB ⟨if ts < ps then t.start_date else p.start_date,
          if pe < te then t.end_date else p.end_date⟩ t = true := by
        unfold coversB
        rw [hp2s, hp2e, hts, hte]
        simp only [Bool.and_eq_true, decide_eq_true_eq]
        constructor
        · by_cases h2 : ts < ps <;> simp [h2] <;> linarith [le_of_not_lt h2]
        · by_cases h1 : pe < te <;> simp [h1] <;> linarith [le_of_not_lt h1]
      rcases List.mem_cons.mp hr with hr | hr
      · exact hr ▸ hcov2
      · have hparsed2 : parsedB ⟨if ts < ps then t.start_date else p.start_date,
            if pe < te then t.end_date else p.end_date⟩ = true := by
          unfold parsedB
          rw [hp2s, hp2e]; rfl
        have := ih _ hparsed2 (fun x hx => hall x (List.mem_cons_of_mem p hx))
          ((List.chain'_cons'.mp hc).2) r hr
        exact coversB_trans this hcov2
    · simp only [if_neg hch]
      push_neg at hch
      have hcovp : coversB p t = true := by
        unfold coversB
        rw [hps, hpe, hts, hte]
        simp only [Bool.and_eq_true, decide_eq_true_eq]
        exact ⟨hch.2, hch.1⟩
      intro r hr
      rcases List.mem_cons.mp hr with hr | hr
      · exact hr ▸ hcovp
      · exact coversB_trans (chain_covers rest p hc r hr) hcovp

/-- Witness for `update_hierarchy_dates_expands_consistent_chain`: on a
consistent three-level chain whose parent and grandparent both expand, the
expanded grandparent record covers the edited task. -/
theorem update_hierarchy_dates_expands_consistent_chain_witness :
    coversB ⟨RawDate.valid 0, RawDate.valid 10⟩
        ⟨RawDate.valid 0, RawDate.valid 10⟩ = true :=
  update_hierarchy_dates_expands_consistent_chain ⟨.valid 0, .valid 10⟩
    [⟨.valid 2, .valid 8⟩, ⟨.valid 2, .valid 9⟩] (by decide) (by decide)
    (List.chain'_pair.mpr (by decide)) ⟨.valid 0, .valid 10⟩ (by decide)

/-! ### Completion aggregation (claims C1 and C10) -/

/-- Total duration weight of a list of children. -/
def sumDuration (now : ℚ) (cs : List ChildRec) : ℕ :=
  (cs.map (childDuration now)).sum

/-- Duration-weighted completion sum of a list of children. -/
def sumWeighted (now : ℚ) (cs : List ChildRec) : ℕ :=
  (cs.map (fun c => childComp c * childDuration now c)).sum

/-- Modelled from the spec: the aggregate §4.3 describes, with `round`
(nearest integer) instead of the code's truncation.  Used to compare the
spec's formula with `update_parent_completion`. -/
def specRoundedAvg (now : ℚ) (cs : List ChildRec) : ℤ :=
  round ((sumWeighted now cs : ℚ) / (sumDuration now cs : ℚ))

theorem upcLoop_eq (now : ℚ) (cs : List ChildRec) :
    ∀ td ws, upcLoop now cs (td, ws) =
      (td + sumDuration now cs, ws + sumWeighted now cs) := by
  induction cs with
  | nil => intro td ws; simp [upcLoop, sumDuration, sumWeighted]
  | cons c cs ih =>
    intro td ws
    rw [upcLoop, ih]
    simp [sumDuration, sumWeighted]
    constructor <;> ring

theorem childDuration_pos (now : ℚ) (c : ChildRec) : 1 ≤ childDuration now c := by
  unfold childDuration
  have h := le_max_left 1 (⌊childEnd now c - childStart now c⌋ + 1)
  omega

/-- Claim C1 as stated is false: the code truncates with `int(...)` rather
than rounding.  Three one-day children with completions 1, 2 and 2 average
to 5/3; the code stores `int(5/3) = 1` while the claimed formula
`round(5/3)` gives 2. -/
theorem update_parent_completion_truncates_not_rounds :
    update_parent_completion 0
        [⟨.valid 0, .valid 0, some 1⟩, ⟨.valid 0, .valid 0, some 2⟩,
          ⟨.valid 0, .valid 0, some 2⟩] = 1 ∧
      specRoundedAvg 0
        [⟨.valid 0, .valid 0, some 1⟩, ⟨.valid 0, .valid 0, some 2⟩,
          ⟨.valid 0, .valid 0, some 2⟩] = 2 := by
  constructor
  · norm_num [update_parent_completion, upcLoop, childDuration, childEnd,
      childStart, childComp, ensure_datetime]
  · norm_num [specRoundedAvg, sumWeighted, sumDuration, childComp, childDuration,
      childStart, childEnd, ensure_datetime, round_eq]

/-- Claim C1, amended: for every task with at least one direct child,
`update_parent_completion` sets the task's completion to the *truncated*
duration-weighted average `int(Σ(completion × duration) / Σ(duration))`
over its direct children only, a child's duration being
`endDate - startDate + 1` days floored at 1. -/
theorem update_parent_completion_weighted_floor_avg (now : ℚ) (cs : List ChildRec)
    (h : cs ≠ []) :
    update_parent_completion now cs = sumWeighted now cs / sumDuration now cs := by
  unfold update_parent_completion
  rw [upcLoop_eq]
  have hpos : 0 < sumDuration now cs := by
    rcases cs with _ | ⟨c, cs⟩
    · exact absurd rfl h
    · have := childDuration_pos now c
      simp [sumDuration]
      omega
  simp [hpos]

/-- Witness for `update_parent_completion_weighted_floor_avg` at the spec's
scenario: children of durations 2 days (completion 100) and 8 days
(completion 0) yield parent completion 20. -/
theorem update_parent_completion_weighted_floor_avg_witness :
    update_parent_completion 0
        [⟨.valid 0, .valid 1, some 100⟩, ⟨.valid 2, .valid 9, some 0⟩] = 20 :=
  (update_parent_completion_weighted_floor_avg 0
    [⟨.valid 0, .valid 1, some 100⟩, ⟨.valid 2, .valid 9, some 0⟩]
    (by decide)).trans (by
      norm_num [sumWeighted, sumDuration, childComp, childDuration, childStart,
        childEnd, ensure_datetime]
      decide)

/-- Claim C10 as stated is false: a child whose start date is unparsable
but whose end date parses does *not* get duration weight 1 — its start
defaults to `now` and its end keeps its parsed value.  With `now` at day 0,
an end date at day 9 and a malformed start, the weight is 10, and together
with a second one-day child of completion 0 the parent gets
`int(100·10 / 11) = 90`, not the `int(100·1 / 2) = 50` the claim implies. -/
theorem update_parent_completion_missing_start_weight :
    childDuration 0 ⟨.malformed, .valid 9, some 100⟩ = 10 ∧
      childDuration 0 ⟨.malformed, .valid 9, some 100⟩ ≠ 1 ∧
      update_parent_completion 0
        [⟨.malformed, .valid 9, some 100⟩, ⟨.valid 0, .valid 0, some 0⟩] = 90 := by
  refine ⟨?_, ?_, ?_⟩ <;>
    norm_num [update_parent_completion, upcLoop, childDuration, childEnd,
      childStart, childComp, ensure_datetime] <;> decide

/-- Claim C10, amended: in completion aggregation a direct child whose
start date is missing or unparsable is still counted, its start defaulting
to the current time; its end defaults to its start only when the end itself
is missing or unparsable, and in that case the duration weight is exactly
1 day; a child whose completion is `None` contributes 0 to the weighted sum
(replacing it by completion 0 leaves the aggregate unchanged); such
children are never skipped. -/
theorem update_parent_completion_defaults (now : ℚ) (c : ChildRec) (cs : List ChildRec)
    (hs : ensure_datetime c.start_date = none) :
    childStart now c = now ∧
      (ensure_datetime c.end_date = none → childDuration now c = 1) ∧
      (c.completion = none →
        update_parent_completion now (c :: cs) =
          update_parent_completion now ({ c with completion := some 0 } :: cs)) := by
  refine ⟨?_, ?_, ?_⟩
  · simp [childStart, hs]
  · intro he
    simp [childDuration, childEnd, childStart, hs, he]
  · intro hc
    have hdur : childDuration now ({ c with completion := some 0 }) =
        childDuration now c := by
      simp [childDuration, childEnd, childStart]
    have hcomp : childComp ({ c with completion := some 0 }) = childComp c := by
      simp [childComp, hc]
    unfold update_parent_completion
    rw [upcLoop_eq, upcLoop_eq]
    simp [sumDuration, sumWeighted, hdur, hcomp]

/-- Witness for `update_parent_completion_defaults` at a child with both
dates missing and completion `None`. -/
theorem update_parent_completion_defaults_witness :
    childStart 5 ⟨.missing, .missing, none⟩ = 5 ∧
      (ensure_datetime (RawDate.missing) = none →
        childDuration 5 ⟨.missing, .missing, none⟩ = 1) ∧
      ((none : Option ℕ) = none →
        update_parent_completion 5 [⟨.missing, .missing, none⟩] =
          update_parent_completion 5
            [{ (⟨.missing, .missing, none⟩ : ChildRec) with completion := some 0 }]) :=
  update_parent_completion_defaults 5 ⟨.missing, .missing, none⟩ [] rfl

/-! ### Root identifier generation (claim C5) -/

theorem foldr_max_pull (l : List ℕ) (x y : ℕ) :
    l.foldr max (max x y) = max x (l.foldr max y) := by
  induction l with
  | nil => rfl
  | cons a l ih => simp only [List.foldr, ih]; rw [max_left_comm]

theorem maxLeadingNum_foldl (ids : List (List Char)) :
    ∀ a : ℕ, ids.foldl
        (fun max_id tid =>
          match leadingTaskNum tid with
          | some num => if max_id < num then num else max_id
          | none => max_id) a =
      (ids.filterMap leadingTaskNum).foldr max a := by
  induction ids with
  | nil => intro a; rfl
  | cons tid ids ih =>
    intro a
    rcases h : leadingTaskNum tid with _ | n
    · simp [List.foldl, List.filterMap_cons, h, ih]
    · have hstep : (if a < n then n else a) = max n a := by
        by_cases hl : a < n <;> simp [hl] <;> omega
      simp only [List.foldl, List.filterMap_cons, h, ih, hstep, List.foldr]
      rw [foldr_max_pull]

/-- Claim C5 as stated is false on the code: the regex `^TASK(\d+)` also
matches deeper identifiers, so their leading integers are *not* ignored.
On `["TASK1", "TASK5.1"]` the depth-0 maximum is 1 and the claimed result
is `TASK2`, but `generate_task_id` takes the leading 5 of `TASK5.1` into
account and returns `TASK6`. -/
theorem generate_task_id_counts_deeper_ids :
    generate_task_id ["TASK1".data, "TASK5.1".data] = "TASK6".data ∧
      specGenerateRootId ["TASK1".data, "TASK5.1".data] = "TASK2".data := by
  constructor <;>
    simp [generate_task_id, specGenerateRootId, maxLeadingNum, leadingTaskNum,
      natRepr, digitsToNat, digitVal, isDigitCh, List.takeWhile, digitCh,
      List.filter]

/-- Claim C5, amended: `generate_task_id` returns `TASK{m+1}` where `m` is
the maximum leading integer after `TASK` over *all* matching identifiers,
deeper identifiers such as `TASK3.1` included (their leading integer
counts); non-matching identifiers are ignored, the empty set gives `TASK1`,
and on `["TASK1","TASK3","TASK3.1"]` the result is `TASK4`. -/
theorem generate_task_id_max_plus_one :
    (∀ ids, generate_task_id ids =
      'T' :: 'A' :: 'S' :: 'K' ::
        natRepr ((ids.filterMap leadingTaskNum).foldr max 0 + 1)) ∧
      generate_task_id [] = "TASK1".data ∧
      generate_task_id ["TASK1".data, "TASK3".data, "TASK3.1".data] = "TASK4".data := by
  refine ⟨fun ids => ?_, ?_, ?_⟩
  · unfold generate_task_id maxLeadingNum
    rw [maxLeadingNum_foldl]
  · simp [generate_task_id, maxLeadingNum, natRepr, digitCh]
  · simp [generate_task_id, maxLeadingNum, leadingTaskNum, natRepr, digitsToNat,
      digitVal, isDigitCh, List.takeWhile, digitCh]

/-! ### Depth handling in the save flow (claim C4) -/

/-- Claim C4 as stated is false on the code: `TASK1.2.3.4` implies depth 3
(three dots), yet when its parent `TASK1.2.3` exists the save flow creates
the task; no `DepthExceeded` error exists in the code. -/
theorem save_task_accepts_depth_beyond_two :
    save_task ["TASK1".data, "TASK1.2".data, "TASK1.2.3".data] "TASK1.2.3.4".data
        = .created "TASK1.2.3.4".data ∧
      2 < ("TASK1.2.3.4".data).count '.' := by
  constructor
  · simp [save_task, taskIdFormat, dotGroups, isDigitCh, parentIdOf,
      List.takeWhile, List.dropWhile, generate_task_id]
  · decide

/-- Claim C4, amended: the save flow performs no depth validation at all —
an identifier in valid format with more than two dots is created whenever
it is new and its parent identifier exists; depth is bounded only by the
UI's disabling of the Add Sub-Task button for tasks already at two dots,
and a missing parent is reported as a parent-not-found error, never as
`DepthExceeded`. -/
theorem save_task_creates_when_parent_exists (existing : List (List Char))
    (id pid : List Char)
    (hfmt : taskIdFormat id = true)
    (hdepth : 2 < id.count '.')
    (hnew : id ∉ existing)
    (hpid : parentIdOf id = some pid)
    (hparent : pid ∈ existing) :
    save_task existing id = .created id := by
  have hne : ¬ id = [] := by
    rintro rfl
    simp [List.count] at hdepth
  simp [save_task, hne, hfmt, hpid, hparent, hnew]

/-- Witness for `save_task_creates_when_parent_exists`: manual entry of the
depth-3 identifier `TASK2.1.1.7` over a project containing its parent. -/
theorem save_task_creates_when_parent_exists_witness :
    save_task ["TASK2".data, "TASK2.1".data, "TASK2.1.1".data] "TASK2.1.1.7".data
        = .created "TASK2.1.1.7".data :=
  save_task_creates_when_parent_exists
    ["TASK2".data, "TASK2.1".data, "TASK2.1.1".data] "TASK2.1.1.7".data
    "TASK2.1.1".data
    (by simp [taskIdFormat, dotGroups, isDigitCh, List.takeWhile, List.dropWhile])
    (by decide) (by decide) (by decide) (by decide)

/-! ### Unknown time-scale fallback (claim C8) -/

/-- Claim C8 as stated is false on the code: `get_time_scale_config` does
fall back to the Days configuration for the unknown scale name `"Hours"`,
but `get_x_offset_for_date` falls through every branch and returns 0, which
differs from the Days-scale offset already one day after the origin. -/
theorem get_x_offset_unknown_scale_is_zero :
    get_time_scale_config "Hours" = get_time_scale_config "Days" ∧
      get_x_offset_for_date ⟨2025, 1, 2⟩ ⟨2025, 1, 1⟩ "Hours" 30 = 0 ∧
      get_x_offset_for_date ⟨2025, 1, 2⟩ ⟨2025, 1, 1⟩ "Days" 30 = 30 := by
  refine ⟨by decide, by simp [get_x_offset_for_date], ?_⟩
  simp only [get_x_offset_for_date, toOrdinal, leapsUpTo, daysBeforeMonth]
  norm_num [daysInMonth, isLeap]

/-- Claim C8, amended: for every scale name outside the five known ones,
`get_time_scale_config` returns the Days configuration, but the
date-to-offset conversion `get_x_offset_for_date` does *not* behave as the
Days scale — it returns 0 for every date. -/
theorem unknown_scale_config_days_offset_zero (mode : String)
    (h : mode ∉ ["Days", "Weeks", "Months", "Quarters", "Years"]) :
    get_time_scale_config mode = get_time_scale_config "Days" ∧
      ∀ d o : PyDate, ∀ w : ℚ, get_x_offset_for_date d o mode w = 0 := by
  simp only [List.mem_cons, List.mem_singleton, not_or] at h
  obtain ⟨h1, h2, h3, h4, h5, _⟩ := h
  constructor
  · simp [get_time_scale_config, h1, h2, h3, h4, h5]
  · intro d o w
    simp [get_x_offset_for_date, h1, h2, h3, h4, h5]

/-- Witness for `unknown_scale_config_days_offset_zero` at the scale name
`"Fortnights"`. -/
theorem unknown_scale_config_days_offset_zero_witness :
    get_time_scale_config "Fortnights" = get_time_scale_config "Days" ∧
      ∀ d o : PyDate, ∀ w : ℚ,
        get_x_offset_for_date d o "Fortnights" w = 0 :=
  unknown_scale_config_days_offset_zero "Fortnights" (by decide)

/-! ### Offset monotonicity (claim C6): calendar facts -/

theorem daysInMonth_le_31 (L : Bool) (m : ℕ) : daysInMonth L m ≤ 31 := by
  unfold daysInMonth
  split
  any_goals omega
  split <;> omega

theorem daysBeforeMonth_step (L : Bool) (m : ℕ) (hm : 1 ≤ m) :
    daysBeforeMonth L (m + 1) = daysBeforeMonth L m + daysInMonth L m := by
  rcases m with _ | m'
  · omega
  · rfl

theorem daysBeforeMonth_mono (L : Bool) :
    ∀ m1 < 13, ∀ m2 < 13, 1 ≤ m1 → m1 < m2 →
      daysBeforeMonth L m1 + daysInMonth L m1 ≤ daysBeforeMonth L m2 := by
  cases L <;> decide

theorem dayOfYear_le_year_length (L : Bool) :
    ∀ m < 13, ∀ d < 32, 1 ≤ m → 1 ≤ d → d ≤ daysInMonth L m →
      daysBeforeMonth L m + d ≤ 365 + (if L then 1 else 0) := by
  cases L <;> decide

theorem leapsUpTo_step (n : ℕ) (hn : 1 ≤ n) :
    leapsUpTo n = leapsUpTo (n - 1) + (if isLeap n then 1 else 0) := by
  have hcast : ((n - 1 : ℕ) : ℤ) = (n : ℤ) - 1 := by omega
  have h4 : (n : ℤ) / 4 - ((n : ℤ) - 1) / 4 = if n % 4 = 0 then 1 else 0 := by
    split <;> omega
  have h100 : (n : ℤ) / 100 - ((n : ℤ) - 1) / 100 =
      if n % 100 = 0 then 1 else 0 := by
    split <;> omega
  have h400 : (n : ℤ) / 400 - ((n : ℤ) - 1) / 400 =
      if n % 400 = 0 then 1 else 0 := by
    split <;> omega
  simp only [leapsUpTo, hcast]
  by_cases c4 : n % 4 = 0 <;> by_cases c100 : n % 100 = 0 <;>
    by_cases c400 : n % 400 = 0 <;>
    first
    | (exfalso; omega)
    | (simp [isLeap, c4, c100, c400] at h4 h100 h400 ⊢ <;> omega)

theorem leapsUpTo_succ_le (n : ℕ) : leapsUpTo n ≤ leapsUpTo (n + 1) := by
  have h := leapsUpTo_step (n + 1) (by omega)
  simp only [Nat.add_sub_cancel] at h
  rw [h]
  split <;> omega

theorem leapsUpTo_mono {a b : ℕ} (h : a ≤ b) : leapsUpTo a ≤ leapsUpTo b := by
  induction b with
  | zero => simp_all
  | succ b ih =>
    rcases Nat.lt_or_ge a (b + 1) with hlt | hge
    · exact le_trans (ih (by omega)) (leapsUpTo_succ_le b)
    · have : a = b + 1 := by omega
      simp [this]

theorem dayOfYear_lower {a : PyDate} (ha : a.Valid) : 1 ≤ dayOfYear a := by
  unfold dayOfYear
  have := ha.2.2.2.1
  omega

theorem dayOfYear_upper {a : PyDate} (ha : a.Valid) :
    dayOfYear a ≤ 365 + (if isLeap a.year then 1 else 0) := by
  obtain ⟨_, hm1, hm12, hd1, hdm⟩ := ha
  have hd32 : a.day < 32 := by
    have := daysInMonth_le_31 (isLeap a.year) a.month
    omega
  exact dayOfYear_le_year_length (isLeap a.year) a.month (by omega) a.day hd32
    hm1 hd1 hdm

theorem dayOfYear_mono {a b : PyDate} (ha : a.Valid) (hb : b.Valid)
    (hy : a.year = b.year) (hab : a.le b) : dayOfYear a ≤ dayOfYear b := by
  obtain ⟨_, ham1, ham12, had1, hadm⟩ := ha
  obtain ⟨_, hbm1, hbm12, hbd1, hbdm⟩ := hb
  unfold dayOfYear
  rw [hy] at hadm ⊢
  rcases hab with h | ⟨_, h | ⟨hm, hd⟩⟩
  · omega
  · have := daysBeforeMonth_mono (isLeap b.year) a.month (by omega) b.month
      (by omega) ham1 h
    omega
  · rw [hm]
    omega

theorem toOrdinal_doy (x : PyDate) :
    toOrdinal x = 365 * ((x.year : ℤ) - 1) + leapsUpTo (x.year - 1) +
      (dayOfYear x : ℤ) := by
  unfold toOrdinal dayOfYear
  push_cast
  ring

theorem toOrdinal_mono {a b : PyDate} (ha : a.Valid) (hb : b.Valid)
    (hab : a.le b) : toOrdinal a ≤ toOrdinal b := by
  rw [toOrdinal_doy, toOrdinal_doy]
  rcases Nat.lt_or_ge a.year b.year with hy | hy
  · have hay1 : 1 ≤ a.year := ha.1
    have hstep := leapsUpTo_step a.year hay1
    have hmono : leapsUpTo a.year ≤ leapsUpTo (b.year - 1) :=
      leapsUpTo_mono (by omega)
    have hupA := dayOfYear_upper ha
    have hlowB := dayOfYear_lower hb
    by_cases hL : isLeap a.year = true <;>
      simp only [hL, if_true, Bool.false_eq_true, if_false] at hstep hupA <;>
      omega
  · have hy' : a.year = b.year := by
      rcases hab with h | ⟨h, _⟩
      · omega
      · exact h
    have hdoy := dayOfYear_mono ha hb hy' hab
    rw [hy']
    omega

/-- The Months-scale value `12·year + month + (day-1)/31` is monotone in
the date. -/
theorem monthsVal_mono {a b : PyDate} (ha : a.Valid) (hb : b.Valid)
    (hab : a.le b) :
    12 * (a.year : ℚ) + (a.month : ℚ) + ((a.day : ℚ) - 1) / 31 ≤
      12 * (b.year : ℚ) + (b.month : ℚ) + ((b.day : ℚ) - 1) / 31 := by
  obtain ⟨hay1, ham1, ham12, had1, hadm⟩ := ha
  obtain ⟨hby1, hbm1, hbm12, hbd1, hbdm⟩ := hb
  have had31 : a.day ≤ 31 := le_trans hadm (daysInMonth_le_31 _ _)
  have hbd31 : b.day ≤ 31 := le_trans hbdm (daysInMonth_le_31 _ _)
  have qad1 : (1 : ℚ) ≤ (a.day : ℚ) := by exact_mod_cast had1
  have qad31 : (a.day : ℚ) ≤ 31 := by exact_mod_cast had31
  have qbd1 : (1 : ℚ) ≤ (b.day : ℚ) := by exact_mod_cast hbd1
  have qbd31 : (b.day : ℚ) ≤ 31 := by exact_mod_cast hbd31
  have qam1 : (1 : ℚ) ≤ (a.month : ℚ) := by exact_mod_cast ham1
  have qam12 : (a.month : ℚ) ≤ 12 := by exact_mod_cast ham12
  have qbm1 : (1 : ℚ) ≤ (b.month : ℚ) := by exact_mod_cast hbm1
  have qbm12 : (b.month : ℚ) ≤ 12 := by exact_mod_cast hbm12
  have hfa : ((a.day : ℚ) - 1) / 31 ≤ 30 / 31 := by
    apply div_le_div_of_nonneg_right (by linarith) (by norm_num) |>.trans_eq rfl
  have hfb : (0 : ℚ) ≤ ((b.day : ℚ) - 1) / 31 :=
    div_nonneg (by linarith) (by norm_num)
  rcases hab with hy | ⟨hy, hm | ⟨hm, hd⟩⟩
  · have : (a.year : ℚ) + 1 ≤ (b.year : ℚ) := by exact_mod_cast hy
    linarith
  · have hqy : (a.year : ℚ) = (b.year : ℚ) := by exact_mod_cast hy
    have : (a.month : ℚ) + 1 ≤ (b.month : ℚ) := by exact_mod_cast hm
    linarith
  · have hqy : (a.year : ℚ) = (b.year : ℚ) := by exact_mod_cast hy
    have hqm : (a.month : ℚ) = (b.month : ℚ) := by exact_mod_cast hm
    have hqd : (a.day : ℚ) ≤ (b.day : ℚ) := by exact_mod_cast hd
    have : ((a.day : ℚ) - 1) / 31 ≤ ((b.day : ℚ) - 1) / 31 := by
      apply div_le_div_of_nonneg_right (by linarith) (by norm_num) |>.trans_eq rfl
    linarith

/-- The Years-scale value `year + (dayOfYear-1)/365.25` is monotone in the
date. -/
theorem yearsVal_mono {a b : PyDate} (ha : a.Valid) (hb : b.Valid)
    (hab : a.le b) :
    (a.year : ℚ) + ((dayOfYear a : ℚ) - 1) / (1461 / 4) ≤
      (b.year : ℚ) + ((dayOfYear b : ℚ) - 1) / (1461 / 4) := by
  have hupA : dayOfYear a ≤ 366 := by
    have := dayOfYear_upper ha
    split at this <;> omega
  have hlowA := dayOfYear_lower ha
  have hlowB := dayOfYear_lower hb
  have qa1 : (1 : ℚ) ≤ (dayOfYear a : ℚ) := by exact_mod_cast hlowA
  have qa366 : (dayOfYear a : ℚ) ≤ 366 := by exact_mod_cast hupA
  have qb1 : (1 : ℚ) ≤ (dayOfYear b : ℚ) := by exact_mod_cast hlowB
  have hfa : ((dayOfYear a : ℚ) - 1) / (1461 / 4) ≤ 365 / (1461 / 4) := by
    apply div_le_div_of_nonneg_right (by linarith) (by norm_num) |>.trans_eq rfl
  have hfa1 : (365 : ℚ) / (1461 / 4) < 1 := by norm_num
  have hfb : (0 : ℚ) ≤ ((dayOfYear b : ℚ) - 1) / (1461 / 4) :=
    div_nonneg (by linarith) (by norm_num)
  rcases Nat.lt_or_ge a.year b.year with hy | hy
  · have : (a.year : ℚ) + 1 ≤ (b.year : ℚ) := by exact_mod_cast hy
    linarith
  · have hy' : a.year = b.year := by
      rcases hab with h | ⟨h, _⟩
      · omega
      · exact h
    have hdoy := dayOfYear_mono ha hb hy' hab
    have hqy : (a.year : ℚ) = (b.year : ℚ) := by exact_mod_cast hy'
    have hqd : (dayOfYear a : ℚ) ≤ (dayOfYear b : ℚ) := by exact_mod_cast hdoy
    have : ((dayOfYear a : ℚ) - 1) / (1461 / 4) ≤
        ((dayOfYear b : ℚ) - 1) / (1461 / 4) := by
      apply div_le_div_of_nonneg_right (by linarith) (by norm_num) |>.trans_eq rfl
    linarith

/-- Claim C6: for each of the five scales, a fixed origin and a fixed
nonnegative unit width, `get_x_offset_for_date` is monotonically
non-decreasing in the date, across month, quarter and year boundaries
under the 31-day-per-month and 365.25-day-per-year approximations. -/
theorem get_x_offset_for_date_monotone (mode : String)
    (hmode : mode ∈ ["Days", "Weeks", "Months", "Quarters", "Years"])
    (o a b : PyDate) (ha : a.Valid) (hb : b.Valid) (hab : a.le b)
    (w : ℚ) (hw : 0 ≤ w) :
    get_x_offset_for_date a o mode w ≤ get_x_offset_for_date b o mode w := by
  have hord : ((toOrdinal a - toOrdinal o : ℤ) : ℚ) ≤
      ((toOrdinal b - toOrdinal o : ℤ) : ℚ) := by
    exact_mod_cast sub_le_sub_right (toOrdinal_mono ha hb hab) _
  have hmv := monthsVal_mono ha hb hab
  have hyv := yearsVal_mono ha hb hab
  simp only [List.mem_cons, List.mem_singleton, List.not_mem_nil, or_false] at hmode
  rcases hmode with rfl | rfl | rfl | rfl | rfl <;>
    simp only [get_x_offset_for_date, if_true, if_false, reduceIte] <;>
    apply mul_le_mul_of_nonneg_right _ hw
  · exact hord
  · exact div_le_div_of_nonneg_right hord (by norm_num) |>.trans_eq rfl
  · push_cast
    linarith
  · push_cast
    linarith
  · push_cast
    linarith

/-- Witness for `get_x_offset_for_date_monotone`: the Months scale across
the January-to-February boundary of 2025. -/
theorem get_x_offset_for_date_monotone_witness :
    get_x_offset_for_date ⟨2025, 1, 31⟩ ⟨2025, 1, 1⟩ "Months" 50 ≤
      get_x_offset_for_date ⟨2025, 2, 1⟩ ⟨2025, 1, 1⟩ "Months" 50 :=
  get_x_offset_for_date_monotone "Months" (by decide) ⟨2025, 1, 1⟩
    ⟨2025, 1, 31⟩ ⟨2025, 2, 1⟩ (by decide) (by decide)
    (Or.inr ⟨rfl, Or.inl (by decide)⟩) 50 (by norm_num)

/-! ### Sort-key ordering (claim C7) -/

/-- Strict lexicographic order on the dot-separated integer tuples of two
identifiers (what the claim compares against). -/
def tupleLexLt : List ℕ → List ℕ → Bool
  | _, [] => false
  | [], _ :: _ => true
  | n :: ns, m :: ms =>
    if n < m then true else if m < n then false else tupleLexLt ns ms

/-- The textual form of the dot-separated numeric components. -/
def renderComps : List ℕ → List Char
  | [] => []
  | [n] => natRepr n
  | n :: ns => natRepr n ++ '.' :: renderComps ns

/-- A valid identifier with the given numeric components: `TASK` followed
by the dot-separated components. -/
def taskIdOfComps (ns : List ℕ) : List Char :=
  'T' :: 'A' :: 'S' :: 'K' :: renderComps ns

/-- The five decimal digits of `n < 100000`, most significant first. -/
def pad5 (n : ℕ) : List Char :=
  [digitCh (n / 10000), digitCh (n / 1000 % 10), digitCh (n / 100 % 10),
    digitCh (n / 10 % 10), digitCh (n % 10)]

/-- The padded form of the dot-separated components. -/
def padComps : List ℕ → List Char
  | [] => []
  | [n] => pad5 n
  | n :: ns => pad5 n ++ '.' :: padComps ns

theorem isDigitCh_digitCh (k : ℕ) : isDigitCh (digitCh k) = true := by
  unfold digitCh
  split <;> decide

theorem natRepr_lt10 {n : ℕ} (h : n < 10) : natRepr n = [digitCh n] := by
  rw [natRepr]
  simp [h]

theorem natRepr_ge10 {n : ℕ} (h : 10 ≤ n) :
    natRepr n = natRepr (n / 10) ++ [digitCh (n % 10)] := by
  rw [natRepr]
  simp [Nat.not_lt.mpr h]

theorem natRepr_ne_nil (n : ℕ) : natRepr n ≠ [] := by
  rcases Nat.lt_or_ge n 10 with h | h
  · simp [natRepr_lt10 h]
  · simp [natRepr_ge10 h]

theorem natRepr_all_digits (n : ℕ) : ∀ c ∈ natRepr n, isDigitCh c = true := by
  induction n using Nat.strong_induction_on with
  | _ n ih =>
    rcases Nat.lt_or_ge n 10 with h | h
    · rw [natRepr_lt10 h]
      intro c hc
      rw [List.mem_singleton] at hc
      exact hc ▸ isDigitCh_digitCh n
    · rw [natRepr_ge10 h]
      intro c hc
      rcases List.mem_append.mp hc with hc | hc
      · exact ih (n / 10) (Nat.div_lt_self (by omega) (by omega)) c hc
      · rw [List.mem_singleton] at hc
        exact hc ▸ isDigitCh_digitCh (n % 10)

theorem zfill5_natRepr {n : ℕ} (h : n < 100000) :
    zfill5 (natRepr n) = pad5 n := by
  rcases Nat.lt_or_ge n 10 with h1 | h1
  · rw [natRepr_lt10 h1]
    have e0 : n / 10000 = 0 := by omega
    have e1 : n / 1000 % 10 = 0 := by omega
    have e2 : n / 100 % 10 = 0 := by omega
    have e3 : n / 10 % 10 = 0 := by omega
    have e4 : n % 10 = n := by omega
    simp [zfill5, pad5, e0, e1, e2, e3, e4, List.replicate, digitCh]
  rcases Nat.lt_or_ge n 100 with h2 | h2
  · rw [natRepr_ge10 h1, natRepr_lt10 (show n / 10 < 10 by omega)]
    have e0 : n / 10000 = 0 := by omega
    have e1 : n / 1000 % 10 = 0 := by omega
    have e2 : n / 100 % 10 = 0 := by omega
    have e3 : n / 10 % 10 = n / 10 := by omega
    simp [zfill5, pad5, e0, e1, e2, e3, List.replicate, digitCh]
  rcases Nat.lt_or_ge n 1000 with h3 | h3
  · rw [natRepr_ge10 h1, natRepr_ge10 (show 10 ≤ n / 10 by omega),
      natRepr_lt10 (show n / 10 / 10 < 10 by omega)]
    have e0 : n / 10000 = 0 := by omega
    have e1 : n / 1000 % 10 = 0 := by omega
    have e2 : n / 10 / 10 = n / 100 % 10 := by omega
    have e3 : n / 10 % 10 = n / 10 % 10 := rfl
    simp [zfill5, pad5, e0, e1, e2, List.replicate, digitCh]
  rcases Nat.lt_or_ge n 10000 with h4 | h4
  · rw [natRepr_ge10 h1, natRepr_ge10 (show 10 ≤ n / 10 by omega),
      natRepr_ge10 (show 10 ≤ n / 10 / 10 by omega),
      natRepr_lt10 (show n / 10 / 10 / 10 < 10 by omega)]
    have e0 : n / 10000 = 0 := by omega
    have e1 : n / 10 / 10 / 10 = n / 1000 % 10 := by omega
    have e2 : n / 10 / 10 % 10 = n / 100 % 10 := by omega
    simp [zfill5, pad5, e0, e1, e2, List.replicate, digitCh]
  · rw [natRepr_ge10 h1, natRepr_ge10 (show 10 ≤ n / 10 by omega),
      natRepr_ge10 (show 10 ≤ n / 10 / 10 by omega),
      natRepr_ge10 (show 10 ≤ n / 10 / 10 / 10 by omega),
      natRepr_lt10 (show n / 10 / 10 / 10 / 10 < 10 by omega)]
    have e0 : n / 10 / 10 / 10 / 10 = n / 10000 := by omega
    have e1 : n / 10 / 10 / 10 % 10 = n / 1000 % 10 := by omega
    have e2 : n / 10 / 10 % 10 = n / 100 % 10 := by omega
    simp [zfill5, pad5, e0, e1, e2, List.replicate]

theorem takeWhile_all (p : Char → Bool) (ds : List Char)
    (hds : ∀ c ∈ ds, p c = true) :
    ds.takeWhile p = ds ∧ ds.dropWhile p = [] := by
  induction ds with
  | nil => simp
  | cons d ds ih =>
    have hd := hds d (List.mem_cons_self d ds)
    have := ih (fun c hc => hds c (List.mem_cons_of_mem d hc))
    simp [List.takeWhile, List.dropWhile, hd, this.1, this.2]

theorem takeWhile_all_append (p : Char → Bool) (ds : List Char) (x : Char)
    (r : List Char) (hds : ∀ c ∈ ds, p c = true) (hx : p x = false) :
    (ds ++ x :: r).takeWhile p = ds ∧ (ds ++ x :: r).dropWhile p = x :: r := by
  induction ds with
  | nil => simp [List.takeWhile, List.dropWhile, hx]
  | cons d ds ih =>
    have hd := hds d (List.mem_cons_self d ds)
    have := ih (fun c hc => hds c (List.mem_cons_of_mem d hc))
    simp [List.takeWhile, List.dropWhile, hd, this.1, this.2]

theorem padRuns_cons_nondigit {c : Char} (cs : List Char)
    (h : isDigitCh c = false) : padRuns (c :: cs) = c :: padRuns cs := by
  rw [padRuns]
  simp [h]

theorem padRuns_digit_run (ds rest : List Char) (hne : ds ≠ [])
    (hds : ∀ c ∈ ds, isDigitCh c = true)
    (hrest : rest = [] ∨ ∃ x xs, rest = x :: xs ∧ isDigitCh x = false) :
    padRuns (ds ++ rest) = zfill5 ds ++ padRuns rest := by
  rcases ds with _ | ⟨d, ds'⟩
  · exact absurd rfl hne
  have hd := hds d (List.mem_cons_self d ds')
  have hds' : ∀ c ∈ ds', isDigitCh c = true :=
    fun c hc => hds c (List.mem_cons_of_mem d hc)
  have hsplit : (ds' ++ rest).takeWhile isDigitCh = ds' ∧
      (ds' ++ rest).dropWhile isDigitCh = rest := by
    rcases hrest with rfl | ⟨x, xs, rfl, hx⟩
    · simpa using takeWhile_all isDigitCh ds' hds'
    · exact takeWhile_all_append isDigitCh ds' x xs hds' hx
  show padRuns (d :: (ds' ++ rest)) = zfill5 (d :: ds') ++ padRuns rest
  rw [padRuns]
  simp [hd, hsplit.1, hsplit.2]

theorem padRuns_renderComps (ns : List ℕ) (hne : ns ≠ [])
    (hb : ∀ x ∈ ns, x ≤ 99999) :
    padRuns (renderComps ns) = padComps ns := by
  induction ns with
  | nil => exact absurd rfl hne
  | cons n ns' ih =>
    have hn : n < 100000 := by
      have := hb n (List.mem_cons_self n ns')
      omega
    rcases ns' with _ | ⟨m, ms⟩
    · show padRuns (natRepr n) = pad5 n
      have := padRuns_digit_run (natRepr n) [] (natRepr_ne_nil n)
        (natRepr_all_digits n) (Or.inl rfl)
      simpa [zfill5_natRepr hn, padRuns] using this
    · show padRuns (natRepr n ++ '.' :: renderComps (m :: ms)) =
        pad5 n ++ '.' :: padComps (m :: ms)
      rw [padRuns_digit_run (natRepr n) ('.' :: renderComps (m :: ms))
        (natRepr_ne_nil n) (natRepr_all_digits n)
        (Or.inr ⟨'.', renderComps (m :: ms), rfl, by decide⟩)]
      rw [padRuns_cons_nondigit (renderComps (m :: ms)) (by decide)]
      rw [ih (by simp) (fun x hx => hb x (List.mem_cons_of_mem n hx))]
      rw [zfill5_natRepr hn]

theorem padRuns_taskId (ns : List ℕ) (hne : ns ≠ [])
    (hb : ∀ x ∈ ns, x ≤ 99999) :
    padRuns (taskIdOfComps ns) = 'T' :: 'A' :: 'S' :: 'K' :: padComps ns := by
  unfold taskIdOfComps
  rw [padRuns_cons_nondigit _ (by decide), padRuns_cons_nondigit _ (by decide),
    padRuns_cons_nondigit _ (by decide), padRuns_cons_nondigit _ (by decide),
    padRuns_renderComps ns hne hb]

theorem pyStrLt_cons_same (c : Char) (u v : List Char) :
    pyStrLt (c :: u) (c :: v) = pyStrLt u v := by
  simp [pyStrLt]

theorem list_beq_cons (a b : Char) (x y : List Char) :
    (a :: x == b :: y) = (a == b && x == y) := rfl

theorem pyStrLt_block (x : List Char) : ∀ y u v : List Char,
    x.length = y.length →
    pyStrLt (x ++ u) (y ++ v) = (pyStrLt x y || (x == y && pyStrLt u v)) := by
  induction x with
  | nil =>
    intro y u v h
    have hy : y = [] := by simpa using h.symm
    subst hy
    simp [pyStrLt]
  | cons a x' ih =>
    intro y u v h
    rcases y with _ | ⟨b, y'⟩
    · simp at h
    have h' : x'.length = y'.length := by simpa using h
    show pyStrLt (a :: (x' ++ u)) (b :: (y' ++ v)) = _
    simp only [pyStrLt, ih y' u v h', list_beq_cons]
    cases h1 : (a == b) <;> cases h2 : decide (a.toNat < b.toNat) <;>
      cases h3 : pyStrLt x' y' <;> cases h4 : (x' == y') <;>
      cases h5 : pyStrLt u v <;> rfl

theorem digitCh_toNat_lt : ∀ i, i < 10 → ∀ j, j < 10 →
    ((digitCh i).toNat < (digitCh j).toNat ↔ i < j) := by
  decide

theorem digitCh_inj : ∀ i, i < 10 → ∀ j, j < 10 →
    (digitCh i = digitCh j ↔ i = j) := by
  decide

theorem digits_lex_iff (a0 a1 a2 a3 a4 b0 b1 b2 b3 b4 : ℕ)
    (ha : a1 < 10 ∧ a2 < 10 ∧ a3 < 10 ∧ a4 < 10)
    (hb : b1 < 10 ∧ b2 < 10 ∧ b3 < 10 ∧ b4 < 10) :
    (a0 < b0 ∨ a0 = b0 ∧ (a1 < b1 ∨ a1 = b1 ∧ (a2 < b2 ∨ a2 = b2 ∧
      (a3 < b3 ∨ a3 = b3 ∧ a4 < b4)))) ↔
      a0 * 10000 + a1 * 1000 + a2 * 100 + a3 * 10 + a4 <
        b0 * 10000 + b1 * 1000 + b2 * 100 + b3 * 10 + b4 := by
  omega

theorem digits_eq_iff (a0 a1 a2 a3 a4 b0 b1 b2 b3 b4 : ℕ)
    (ha : a1 < 10 ∧ a2 < 10 ∧ a3 < 10 ∧ a4 < 10)
    (hb : b1 < 10 ∧ b2 < 10 ∧ b3 < 10 ∧ b4 < 10) :
    (a0 = b0 ∧ a1 = b1 ∧ a2 = b2 ∧ a3 = b3 ∧ a4 = b4) ↔
      a0 * 10000 + a1 * 1000 + a2 * 100 + a3 * 10 + a4 =
        b0 * 10000 + b1 * 1000 + b2 * 100 + b3 * 10 + b4 := by
  omega

theorem pad5_digits_value {n : ℕ} :
    n / 10000 * 10000 + n / 1000 % 10 * 1000 + n / 100 % 10 * 100 +
      n / 10 % 10 * 10 + n % 10 = n := by
  omega

theorem pyStrLt_pad5_iff {n m : ℕ} (hn : n < 100000) (hm : m < 100000) :
    (pyStrLt (pad5 n) (pad5 m) = true) ↔ n < m := by
  have a0 : n / 10000 < 10 := by omega
  have b0 : m / 10000 < 10 := by omega
  have a1 : n / 1000 % 10 < 10 := by omega
  have b1 : m / 1000 % 10 < 10 := by omega
  have a2 : n / 100 % 10 < 10 := by omega
  have b2 : m / 100 % 10 < 10 := by omega
  have a3 : n / 10 % 10 < 10 := by omega
  have b3 : m / 10 % 10 < 10 := by omega
  have a4 : n % 10 < 10 := by omega
  have b4 : m % 10 < 10 := by omega
  simp only [pad5, pyStrLt, Bool.or_eq_true, Bool.and_eq_true,
    decide_eq_true_eq, beq_iff_eq, Bool.false_eq_true, and_false, or_false]
  rw [digitCh_toNat_lt _ a0 _ b0, digitCh_inj _ a0 _ b0,
    digitCh_toNat_lt _ a1 _ b1, digitCh_inj _ a1 _ b1,
    digitCh_toNat_lt _ a2 _ b2, digitCh_inj _ a2 _ b2,
    digitCh_toNat_lt _ a3 _ b3, digitCh_inj _ a3 _ b3,
    digitCh_toNat_lt _ a4 _ b4]
  refine Iff.trans (digits_lex_iff _ _ _ _ _ _ _ _ _ _
    ⟨a1, a2, a3, a4⟩ ⟨b1, b2, b3, b4⟩) ?_
  rw [pad5_digits_value, pad5_digits_value]

theorem pad5_inj {n m : ℕ} (hn : n < 100000) (hm : m < 100000) :
    pad5 n = pad5 m ↔ n = m := by
  have a0 : n / 10000 < 10 := by omega
  have b0 : m / 10000 < 10 := by omega
  have a1 : n / 1000 % 10 < 10 := by omega
  have b1 : m / 1000 % 10 < 10 := by omega
  have a2 : n / 100 % 10 < 10 := by omega
  have b2 : m / 100 % 10 < 10 := by omega
  have a3 : n / 10 % 10 < 10 := by omega
  have b3 : m / 10 % 10 < 10 := by omega
  have a4 : n % 10 < 10 := by omega
  have b4 : m % 10 < 10 := by omega
  simp only [pad5, List.cons.injEq, and_true]
  rw [digitCh_inj _ a0 _ b0, digitCh_inj _ a1 _ b1, digitCh_inj _ a2 _ b2,
    digitCh_inj _ a3 _ b3, digitCh_inj _ a4 _ b4]
  refine Iff.trans (digits_eq_iff _ _ _ _ _ _ _ _ _ _
    ⟨a1, a2, a3, a4⟩ ⟨b1, b2, b3, b4⟩) ?_
  rw [pad5_digits_value, pad5_digits_value]

theorem pyStrLt_padComps_iff : ∀ ns ms : List ℕ, ns ≠ [] →
    ns.length = ms.length → (∀ x ∈ ns, x ≤ 99999) → (∀ x ∈ ms, x ≤ 99999) →
    ((pyStrLt (padComps ns) (padComps ms) = true) ↔ tupleLexLt ns ms = true) := by
  intro ns
  induction ns with
  | nil => intro ms hne; exact absurd rfl hne
  | cons n ns' ih =>
    intro ms hne hlen hbn hbm
    rcases ms with _ | ⟨m, ms'⟩
    · simp at hlen
    have hn : n < 100000 := by
      have := hbn n (List.mem_cons_self n ns')
      omega
    have hm : m < 100000 := by
      have := hbm m (List.mem_cons_self m ms')
      omega
    rcases ns' with _ | ⟨n2, ns''⟩
    · rcases ms' with _ | ⟨m2, ms''⟩
      · show (pyStrLt (pad5 n) (pad5 m) = true) ↔ _
        rw [pyStrLt_pad5_iff hn hm]
        simp only [tupleLexLt]
        split_ifs with h1 h2 <;> simp <;> omega
      · simp at hlen
    · rcases ms' with _ | ⟨m2, ms''⟩
      · simp at hlen
      show (pyStrLt (pad5 n ++ '.' :: padComps (n2 :: ns''))
          (pad5 m ++ '.' :: padComps (m2 :: ms'')) = true) ↔ _
      rw [pyStrLt_block (pad5 n) (pad5 m) _ _ rfl, pyStrLt_cons_same]
      have hih := ih (m2 :: ms'') (by simp) (by simpa using hlen)
        (fun x hx => hbn x (List.mem_cons_of_mem n hx))
        (fun x hx => hbm x (List.mem_cons_of_mem m hx))
      simp only [Bool.or_eq_true, Bool.and_eq_true, beq_iff_eq]
      rw [pyStrLt_pad5_iff hn hm, pad5_inj hn hm]
      rcases Nat.lt_trichotomy n m with h | h | h
      · simp only [tupleLexLt, if_pos h]
        simp [h]
      · subst h
        simp only [tupleLexLt, lt_irrefl, if_neg (lt_irrefl n)]
        simp only [lt_irrefl, false_or, true_and, if_false]
        exact hih
      · have hne' : ¬ n = m := by omega
        have hnlt : ¬ n < m := by omega
        simp only [tupleLexLt, if_neg hnlt, if_pos h]
        simp [hnlt, hne']

/-- Claim C7: for valid identifiers at the same depth with numeric
components up to 99999, the sort keys produced by `get_task_sort_key`
compare under ordinary (Python) string comparison exactly as the
identifiers' dot-separated integer tuples compare lexicographically; in
particular `SortKey("TASK2") < SortKey("TASK10")` and
`SortKey("TASK1.2") < SortKey("TASK1.10")`. -/
theorem get_task_sort_key_natural_order :
    (∀ ns ms : List ℕ, ns ≠ [] → ns.length = ms.length →
      (∀ x ∈ ns, x ≤ 99999) → (∀ x ∈ ms, x ≤ 99999) →
      ((pyStrLt (get_task_sort_key ⟨taskIdOfComps ns⟩).data
          (get_task_sort_key ⟨taskIdOfComps ms⟩).data = true) ↔
        tupleLexLt ns ms = true)) ∧
      pyStrLt (get_task_sort_key "TASK2").data
        (get_task_sort_key "TASK10").data = true ∧
      pyStrLt (get_task_sort_key "TASK1.2").data
        (get_task_sort_key "TASK1.10").data = true := by
  refine ⟨fun ns ms hne hlen hbn hbm => ?_, ?_, ?_⟩
  · have hmne : ms ≠ [] := by
      intro h
      subst h
      exact hne (List.length_eq_zero.mp hlen)
    show (pyStrLt (padRuns (taskIdOfComps ns)) (padRuns (taskIdOfComps ms))
        = true) ↔ _
    rw [padRuns_taskId ns hne hbn, padRuns_taskId ms hmne hbm,
      pyStrLt_cons_same, pyStrLt_cons_same, pyStrLt_cons_same,
      pyStrLt_cons_same]
    exact pyStrLt_padComps_iff ns ms hne hlen hbn hbm
  · show pyStrLt (padRuns "TASK2".data) (padRuns "TASK10".data) = true
    rw [show "TASK2".data = ['T', 'A', 'S', 'K', '2'] from by decide,
      show "TASK10".data = ['T', 'A', 'S', 'K', '1', '0'] from by decide]
    simp [padRuns, isDigitCh, zfill5, pyStrLt, List.takeWhile, List.dropWhile]
  · show pyStrLt (padRuns "TASK1.2".data) (padRuns "TASK1.10".data) = true
    rw [show "TASK1.2".data = ['T', 'A', 'S', 'K', '1', '.', '2'] from by decide,
      show "TASK1.10".data = ['T', 'A', 'S', 'K', '1', '.', '1', '0'] from by
        decide]
    simp [padRuns, isDigitCh, zfill5, pyStrLt, List.takeWhile, List.dropWhile]

/-- Witness for `get_task_sort_key_natural_order` at the identifiers
`TASK2` and `TASK10` (components `[2]` and `[10]`). -/
theorem get_task_sort_key_natural_order_witness :
    (pyStrLt (get_task_sort_key ⟨taskIdOfComps [2]⟩).data
        (get_task_sort_key ⟨taskIdOfComps [10]⟩).data = true) ↔
      tupleLexLt [2] [10] = true :=
  get_task_sort_key_natural_order.1 [2] [10] (by decide) rfl (by decide)
    (by decide)

end CardiLog
